import Mathlib

/-!
Shallow embedding of the `qchem_g16` translator (src/lib.rs and src/main.rs)
and verification of its specification.

Rust `f64` values are modelled as rationals (`ℚ`): every numeric literal in
the claims is exactly representable, and the properties under scrutiny are
index bookkeeping, ordering and error flow, not floating-point rounding.
Machine integers (`u8`, `i8`, `u16`, `usize`) are modelled as `ℕ`/`ℤ` with
their range checks made explicit where the source performs them.
File I/O is dropped: each function takes the file *content* it would read.
-/

-- Decidable equality of results, for concrete-instance checking.
deriving instance DecidableEq for Except

namespace QchemG16

/-- `CONV_FACTOR` from src/lib.rs line 8 (and the identical constant in
src/main.rs line 7): `4.46552493159e-4`, exactly. -/
def CONV_FACTOR : ℚ := 446552493159 / 1000000000000000

/-- The error values produced by the library (`std::io::Error` payloads):
one constructor per distinct `Error::new(...)` site in src/lib.rs. -/
inductive QErr where
  /-- "failed to parse values" / "failed to parse floats" -/
  | parseError : QErr
  /-- "expected {n} values, got {m}" -/
  | countMismatch (expected got : ℕ) : QErr
  /-- "no energy line found in output file" -/
  | noEnergyLine : QErr
  /-- "Gaussian input file is truncated" -/
  | truncated : QErr
  /-- "Gaussian input file is empty" -/
  | empty : QErr
deriving DecidableEq, Repr

/-- The descriptive message carried by each error site in src/lib.rs. -/
def QErr.message : QErr → String
  | .parseError => "failed to parse values"
  | .countMismatch n m =>
      "expected " ++ toString n ++ " values, got " ++ toString m
  | .noEnergyLine => "no energy line found in output file"
  | .truncated => "Gaussian input file is truncated"
  | .empty => "Gaussian input file is empty"

/-! ## String primitives mirroring the Rust standard library

These are written by structural recursion over the character list of the
string, so that concrete instances compute inside the kernel.  Rust indexes
by byte where Lean indexes by character; the two agree on the ASCII data
the translator handles. -/

/-- Character count of a string. -/
def strLen (s : String) : ℕ := s.data.length

/-- The first `n` characters (Rust `str::split_at(n).0`). -/
def strTake (s : String) (n : ℕ) : String := ⟨s.data.take n⟩

/-- All but the first `n` characters (Rust `str::split_at(n).1`, and the
effect of `strip_prefix` once the label is known to be present). -/
def strDrop (s : String) (n : ℕ) : String := ⟨s.data.drop n⟩

/-- Rust `str::starts_with` for a literal pattern. -/
def rustStartsWith (s pat : String) : Bool := pat.data.isPrefixOf s.data

/-- Rust `str::trim`: remove leading and trailing whitespace. -/
def rustTrim (s : String) : String :=
  ⟨((s.data.dropWhile Char.isWhitespace).reverse.dropWhile
      Char.isWhitespace).reverse⟩

/-- Whitespace tokenizer: `acc` holds the reversed characters of the token
being read. -/
def tokenizeAux : List Char → List Char → List (List Char)
  | [], acc => if acc = [] then [] else [acc.reverse]
  | c :: cs, acc =>
      if c.isWhitespace then
        if acc = [] then tokenizeAux cs []
        else acc.reverse :: tokenizeAux cs []
      else tokenizeAux cs (c :: acc)

/-- Rust `str::split_whitespace`: maximal runs of non-whitespace characters,
in order; empty runs are skipped. -/
def splitWhitespace (s : String) : List String :=
  (tokenizeAux s.data []).map String.mk

/-- Split a character list on `'\n'`, keeping empty segments (the
behavior of splitting on a separator). -/
def splitNl : List Char → List Char → List (List Char)
  | [], acc => [acc.reverse]
  | c :: cs, acc =>
      if c = '\n' then acc.reverse :: splitNl cs []
      else splitNl cs (c :: acc)

/-- Rust `str::lines`: split on `'\n'`, dropping a final empty segment
(so a trailing newline does not create an empty last line) and stripping a
trailing `'\r'` from each line. -/
def rustLines (s : String) : List String :=
  let parts := splitNl s.data []
  let parts := if parts.getLast? = some [] then parts.dropLast else parts
  parts.map (fun l => ⟨if l.getLast? = some '\r' then l.dropLast else l⟩)

/-! ## Numeric token parsers

Models for Rust's `FromStr` on the numeric types the translator uses.
Grammars: an optional sign (`u8` accepts `+` only) followed by at least one
decimal digit, with the type's range check; for `f64`, an optional sign,
a decimal mantissa (`D.`, `D.D`, `.D` or `D`) and an optional decimal
exponent, evaluated exactly in `ℚ` (the `inf`/`NaN` spellings, which never
occur in the translator's inputs, are omitted). -/

/-- Value of a nonempty all-digit character list, most significant first. -/
def digitsVal (cs : List Char) : ℕ :=
  cs.foldl (fun acc c => 10 * acc + (c.toNat - '0'.toNat)) 0

/-- Whether `cs` is one or more decimal digits. -/
def allDigits (cs : List Char) : Bool :=
  cs ≠ [] && cs.all (fun c => c.isDigit)

/-- Rust `u8::from_str`: optional `+`, digits, value `≤ 255`. -/
def parseU8 (s : String) : Option ℕ :=
  let cs := match s.data with
    | '+' :: rest => rest
    | cs => cs
  if allDigits cs then
    let v := digitsVal cs
    if v ≤ 255 then some v else none
  else none

/-- Rust `i8::from_str`: optional sign, digits, value in `[-128, 127]`. -/
def parseI8 (s : String) : Option ℤ :=
  let (neg, cs) : Bool × List Char := match s.data with
    | '+' :: rest => (false, rest)
    | '-' :: rest => (true, rest)
    | cs => (false, cs)
  if allDigits cs then
    let v : ℤ := if neg then -(digitsVal cs : ℤ) else (digitsVal cs : ℤ)
    if -128 ≤ v ∧ v ≤ 127 then some v else none
  else none

/-- Split a character list at the first occurrence of `sep`; `none` when
`sep` does not occur. -/
def splitAtChar (sep : Char) : List Char → Option (List Char × List Char)
  | [] => none
  | c :: cs =>
      if c = sep then some ([], cs)
      else match splitAtChar sep cs with
        | some (l, r) => some (c :: l, r)
        | none => none

/-- Mantissa of a float literal: `D`, `D.`, `D.F` or `.F` with `D`, `F`
digit runs; value as an exact rational
(`ip.fp = (ip * 10^|fp| + fp) / 10^|fp|`, assembled with `Rat.divInt` so
that concrete instances compute inside the kernel). -/
def parseMantissa (cs : List Char) : Option ℚ :=
  match splitAtChar '.' cs with
  | none => if allDigits cs then some (Rat.divInt (digitsVal cs) 1) else none
  | some (ip, fp) =>
      if allDigits ip && (fp = [] || allDigits fp) then
        some (Rat.divInt
          (digitsVal ip * Nat.pow 10 fp.length + digitsVal fp)
          (Nat.pow 10 fp.length))
      else if ip = [] && allDigits fp then
        some (Rat.divInt (digitsVal fp) (Nat.pow 10 fp.length))
      else none

/-- Signed decimal exponent, as used after `e`/`E` in a float literal. -/
def parseExp (cs : List Char) : Option ℤ :=
  let (neg, ds) : Bool × List Char := match cs with
    | '+' :: rest => (false, rest)
    | '-' :: rest => (true, rest)
    | ds => (false, ds)
  if allDigits ds then
    some (if neg then -(digitsVal ds : ℤ) else (digitsVal ds : ℤ))
  else none

/-- Scale a rational by a signed power of ten (the exponent part of a
float literal), exactly. -/
def applyExp (mv : ℚ) (ev : ℤ) : ℚ :=
  if 0 ≤ ev then Rat.divInt (mv.num * Int.pow 10 ev.toNat) mv.den
  else Rat.divInt mv.num (mv.den * Nat.pow 10 (-ev).toNat)

/-- Rust `f64::from_str` on finite decimal literals, evaluated exactly. -/
def parseF64 (s : String) : Option ℚ :=
  let (neg, cs) : Bool × List Char := match s.data with
    | '+' :: rest => (false, rest)
    | '-' :: rest => (true, rest)
    | cs => (false, cs)
  let body : Option ℚ :=
    match splitAtChar 'e' cs with
    | some (m, e) => do
        let mv ← parseMantissa m
        let ev ← parseExp e
        pure (applyExp mv ev)
    | none =>
      match splitAtChar 'E' cs with
      | some (m, e) => do
          let mv ← parseMantissa m
          let ev ← parseExp e
          pure (applyExp mv ev)
      | none => parseMantissa cs
  body.map (fun v => if neg then Rat.neg v else v)

/-! ## `parse_nums_from_str` (src/lib.rs lines 35–53) -/

/-- `parse_nums_from_str::<T>(n, data)`: split `data` on whitespace, parse
every token with the type's parser, succeed with the parsed vector only when
no token fails and exactly `n` values were produced.  A parse failure wins
over a count mismatch, exactly as in the source (`collect` into `Result`
first, length check second). -/
def parse_nums_from_str {τ : Type} (parse : String → Option τ) (n : ℕ)
    (data : String) : Except QErr (List τ) :=
  match (splitWhitespace data).mapM parse with
  | some vals =>
      if vals.length = n then .ok vals
      else .error (.countMismatch n vals.length)
  | none => .error .parseError

/-! ## `parse_energy` (src/lib.rs lines 10–33) -/

/-- The literal label scanned for in the engine log. -/
def energyLabel : String := " The QM part of the energy is"

/-- `parse_energy(qchem_out)`: first line starting with `energyLabel`; strip
the label, trim, parse as a float.  No matching line is
"no energy line found in output file". -/
def parse_energy (qchem_out : String) : Except QErr ℚ :=
  match ((rustLines qchem_out).filter
      (fun x => rustStartsWith x energyLabel)).head? with
  | none => .error .noEnergyLine
  | some val =>
      match parseF64 (rustTrim (strDrop val (strLen energyLabel))) with
      | some e => .ok e
      | none => .error .parseError

/-! ## `Calculation` (src/lib.rs lines 136–144) and
`parse_gau_ein` (src/lib.rs lines 159–197) -/

/-- The parsed request.  Rust types `usize`, `usize`, `i8`, `i8`, `Vec<u8>`,
`Vec<[f64; 3]>` become `ℕ`, `ℕ`, `ℤ`, `ℤ`, `List ℕ`, `List (ℚ × ℚ × ℚ)`. -/
structure Calculation where
  natoms : ℕ
  nder : ℕ
  charge : ℤ
  spin : ℤ
  z : List ℕ
  coords : List (ℚ × ℚ × ℚ)
deriving DecidableEq, Repr

/-- The atom-line loop of `parse_gau_ein` (src/lib.rs lines 172–185): read
one line per remaining atom from the line iterator.  `none` models a Rust
panic: `line.split_at(11)` panics when the line is shorter than 11
characters (bytes and characters coincide on the translator's ASCII
inputs).  Running out of lines is the "Gaussian input file is truncated"
error; token errors from `parse_nums_from_str` propagate. -/
def readAtoms : ℕ → List String → Option (Except QErr (List ℕ × List (ℚ × ℚ × ℚ)))
  | 0, _ => some (.ok ([], []))
  | _ + 1, [] => some (.error .truncated)
  | n + 1, line :: rest =>
      if strLen line < 11 then none
      else
        match parse_nums_from_str parseU8 1 (strTake line 11) with
        | .error e => some (.error e)
        | .ok zs =>
            match parse_nums_from_str parseF64 4 (strDrop line 11) with
            | .error e => some (.error e)
            | .ok vals =>
                match readAtoms n rest with
                | none => none
                | some (.error e) => some (.error e)
                | some (.ok (zacc, cacc)) =>
                    some (.ok (zs.headI :: zacc,
                      (vals.getD 0 0, vals.getD 1 0, vals.getD 2 0) :: cacc))

/-- `parse_gau_ein` on the request file's content.  `none` models a panic:
either a negative `natoms`/`nder` (the `try_into().unwrap()` on lines
165–166) or a short atom line (the `split_at(11)` on line 174, via
`readAtoms`).  An input without a header line is "Gaussian input file is
empty". -/
def parse_gau_ein (content : String) : Option (Except QErr Calculation) :=
  match rustLines content with
  | [] => some (.error .empty)
  | header :: rest =>
      match parse_nums_from_str parseI8 4 header with
      | .error e => some (.error e)
      | .ok entries =>
          let natoms : ℤ := entries.getD 0 0
          let nder : ℤ := entries.getD 1 0
          if natoms < 0 ∨ nder < 0 then none
          else
            match readAtoms natoms.toNat rest with
            | none => none
            | some (.error e) => some (.error e)
            | some (.ok (zvals, coords)) =>
                some (.ok { natoms := natoms.toNat, nder := nder.toNat,
                            charge := entries.getD 2 0, spin := entries.getD 3 0,
                            z := zvals, coords := coords })

/-! ## The Hessian reindexer (src/lib.rs lines 91–131)

The Rust code builds a `HashMap<(u16, u16), f64>` and then re-reads it in
coordinate-major lower-triangular order.  The map is modelled as a function
`ℕ × ℕ → Option ℚ`; the two nested `for` loops with the running counter `k`
become fuel-indexed recursions (the fuel is exactly the number of loop
iterations left, so the `j < N` / `i < N` guards behave as in the source). -/

/-- The associative lookup used for the symmetric Hessian. -/
def HMap : Type := ℕ × ℕ → Option ℚ

/-- `HashMap::insert`: the new binding shadows any older one. -/
def hmInsert (m : HMap) (key : ℕ × ℕ) (v : ℚ) : HMap :=
  fun q => if q = key then some v else m q

/-- Inner loop of the Hessian build (src/lib.rs lines 106–110): for `j`
from its current value while `j < N`, insert `data[k] * CONV_FACTOR` at
both `(i, j)` and `(j, i)` and step `k`.  Returns the map and the counter.
Callers pass `fuel = N - j`. -/
def hessRow (data : List ℚ) (N i : ℕ) : ℕ → ℕ → ℕ → HMap → HMap × ℕ
  | 0, _, k, m => (m, k)
  | fuel + 1, j, k, m =>
      if j < N then
        hessRow data N i fuel (j + 1) (k + 1)
          (hmInsert (hmInsert m (i, j) (data.getD k 0 * CONV_FACTOR))
            (j, i) (data.getD k 0 * CONV_FACTOR))
      else (m, k)

/-- Outer loop of the Hessian build (src/lib.rs lines 105–111): rows `i`
while `i < N`, threading the map and `k` through `hessRow`.  Callers pass
`fuel = N - i`. -/
def hessLoop (data : List ℚ) (N : ℕ) : ℕ → ℕ → ℕ → HMap → HMap
  | 0, _, _, m => m
  | fuel + 1, i, k, m =>
      if i < N then
        let st := hessRow data N i (N - i) i k m
        hessLoop data N fuel (i + 1) st.2 st.1
      else m

/-- The complete symmetric lookup built from the triangular data
(src/lib.rs lines 103–111, with `k = 0` and an empty map). -/
def buildHess (data : List ℚ) (N : ℕ) : HMap :=
  hessLoop data N N 0 0 (fun _ => none)

/-- `n_hessian` (src/lib.rs line 92): `(3*natoms) * (3*natoms + 1) / 2`. -/
def nHessian (natoms : ℕ) : ℕ := (3 * natoms) * (3 * natoms + 1) / 2

/-- The emission quadruple loop (src/lib.rs lines 114–130), collecting the
values written: for atom `i`, axis `ix`, atom `j`, axis `jx`, emit
`hess[(left, right)]` whenever `left ≥ right` with `left = 3*i + ix`,
`right = 3*j + jx`.  The `count` variable only places newlines and does not
affect which values are emitted; the text layer is modelled separately. -/
def emitHessVals (natoms : ℕ) (hess : HMap) : List ℚ :=
  (List.range natoms).flatMap (fun i =>
    (List.range 3).flatMap (fun ix =>
      (List.range natoms).flatMap (fun j =>
        (List.range 3).filterMap (fun jx =>
          let left := 3 * i + ix
          let right := 3 * j + jx
          if right ≤ left then some ((hess (left, right)).getD 0) else none))))

/-! Specification-side index vocabulary for the reindexing law. -/

/-- The `(left, right)` pairs with `left ≥ right` in the coordinate-major
nested order of the emission loop (specification-side). -/
def lowerPairs (natoms : ℕ) : List (ℕ × ℕ) :=
  (List.range natoms).flatMap (fun i =>
    (List.range 3).flatMap (fun ix =>
      (List.range natoms).flatMap (fun j =>
        (List.range 3).filterMap (fun jx =>
          let left := 3 * i + ix
          let right := 3 * j + jx
          if right ≤ left then some (left, right) else none))))

/-- Number of stored entries in rows `i, i+1, …, i+d-1` of the upper
triangle of an `N × N` matrix (row `t` stores columns `t … N-1`). -/
def triSpan (N : ℕ) : ℕ → ℕ → ℕ
  | _, 0 => 0
  | i, d + 1 => (N - i) + triSpan N (i + 1) d

/-- Flat position of entry `(r, l)`, `r ≤ l`, in row-major upper-triangular
storage of an `N × N` symmetric matrix. -/
def triIndex (N r l : ℕ) : ℕ := triSpan N 0 r + (l - r)

/-! ## Gradient and Hessian emission of the two entry points
(src/lib.rs lines 78–83; src/main.rs lines 74–79 and 91–96) -/

/-- `natoms` iterations of `data.drain(..3)`: the first three remaining
values per iteration, in order. -/
def drainLoop : ℕ → List ℚ → List ℚ
  | 0, _ => []
  | n + 1, data => data.take 3 ++ drainLoop n (data.drop 3)

/-- Gradient values written by the library entry point
`qchem_translate_to_gaussian` (src/lib.rs lines 78–83): drained triples,
written unscaled. -/
def gradVals_qchem (natoms : ℕ) (data : List ℚ) : List ℚ :=
  drainLoop natoms data

/-- Gradient values written by the binary entry point
`translate_to_gaussian` (src/main.rs lines 74–79): drained triples,
written unscaled. -/
def gradVals_main (natoms : ℕ) (data : List ℚ) : List ℚ :=
  drainLoop natoms data

/-- Hessian drain loop of the binary entry point (src/main.rs lines
91–96): `n_hessian / 3` iterations of `data.drain(..3)`, each value scaled
by `CONV_FACTOR` — no reindexing. -/
def mainHessLoop : ℕ → List ℚ → List ℚ
  | 0, _ => []
  | n + 1, data =>
      (data.take 3).map (fun el => el * CONV_FACTOR) ++ mainHessLoop n (data.drop 3)

/-- Hessian values written by the binary entry point (src/main.rs lines
87–97). -/
def hessVals_main (natoms : ℕ) (data : List ℚ) : List ℚ :=
  mainHessLoop (nHessian natoms / 3) data

/-- Hessian values written by the library entry point (src/lib.rs lines
91–131): build the symmetric lookup, then emit in coordinate-major
lower-triangular order. -/
def hessVals_qchem (natoms : ℕ) (data : List ℚ) : List ℚ :=
  emitHessVals natoms (buildHess data (3 * natoms))

/-! ## Fixed-width numeric serialization

Model of Rust's `format!("{:+20.12}", x)` on finite values: explicit sign,
12 fractional digits, right-aligned with spaces to width 20.  The decimal
digits are those of the value rounded to 12 places; for every value the
claims exercise (`1.5`, `0.0`, and exact file data) the rounding is exact,
so the half-way tie-breaking convention is immaterial. -/

/-- The character for the decimal digit `n % 10`. -/
def digitChar (n : ℕ) : Char :=
  match n % 10 with
  | 0 => '0' | 1 => '1' | 2 => '2' | 3 => '3' | 4 => '4'
  | 5 => '5' | 6 => '6' | 7 => '7' | 8 => '8' | _ => '9'

/-- Decimal digits of `n`, most significant first (`fuel`-indexed; any
`fuel > log10 n` gives the digits). -/
def natDigitsAux : ℕ → ℕ → List Char
  | 0, _ => []
  | fuel + 1, n =>
      if n < 10 then [digitChar n]
      else natDigitsAux fuel (n / 10) ++ [digitChar (n % 10)]

/-- Decimal digits of `n`, most significant first. -/
def natDigits (n : ℕ) : List Char := natDigitsAux (n + 1) n

/-- Left-pad a digit run with zeros to width `w`. -/
def padZeros (w : ℕ) (cs : List Char) : List Char :=
  List.replicate (w - cs.length) '0' ++ cs

/-- The characters of `{:+.prec}`-formatting of `q`: sign, integer digits,
point, `prec` fractional digits.  `scaled` is `|q| * 10^prec` rounded
half-up, computed on the numerator and denominator so that concrete
instances reduce. -/
def formatFixed (prec : ℕ) (q : ℚ) : List Char :=
  let sign : Char := if q.num < 0 then '-' else '+'
  let scaled : ℕ := (2 * q.num.natAbs * Nat.pow 10 prec + q.den) / (2 * q.den)
  let ip := scaled / Nat.pow 10 prec
  let fp := scaled % Nat.pow 10 prec
  sign :: (natDigits ip ++ '.' :: padZeros prec (natDigits fp))

/-- Rust `format!("{:+width.prec}", q)`: the fixed body, right-aligned with
spaces to `width`. -/
def rustFormatSigned (width prec : ℕ) (q : ℚ) : String :=
  let body := formatFixed prec q
  ⟨List.replicate (width - body.length) ' ' ++ body⟩

/-- The one field format the translator uses everywhere: `{:+20.12}`. -/
def formatField (q : ℚ) : String := rustFormatSigned 20 12 q

/-! ## The output document of `qchem_translate_to_gaussian`
(src/lib.rs lines 55–134)

The writer is modelled as the string its `write` calls produce, in order.
The `usize → u16` conversion of `natoms` (line 62) cannot fail for any
atom count arising from a parsed request (`natoms ≤ 127` there), so it is
not modelled. -/

/-- One all-zero line: `format!("{:+20.12}{:+20.12}{:+20.12}\n", 0, 0, 0)`
(src/lib.rs lines 70 and 86). -/
def zeroLine : String :=
  formatField 0 ++ formatField 0 ++ formatField 0 ++ "\n"

/-- The gradient block (src/lib.rs lines 78–83): per atom, three drained
values as fields, then a newline. -/
def gradBlockStr : ℕ → List ℚ → String
  | 0, _ => ""
  | n + 1, data =>
      String.join ((data.take 3).map formatField) ++ "\n"
        ++ gradBlockStr n (data.drop 3)

/-- The zero-filled polarizability/dipole-derivative block
(src/lib.rs lines 85–87): `count` copies of `zeroLine`. -/
def zeroBlockStr (count : ℕ) : String :=
  String.join (List.replicate count zeroLine)

/-- The Hessian block text (src/lib.rs lines 113–131).  The running
`count` equals the number of values emitted so far, so the `count % 3 == 0`
test places a newline after every third field; line 131 appends a final
newline. -/
def hessBlockStr (natoms : ℕ) (hess : HMap) : String :=
  String.join ((emitHessVals natoms hess).enum.map
    (fun p => formatField p.2 ++ if (p.1 + 1) % 3 = 0 then "\n" else ""))
    ++ "\n"

/-- The full output of `qchem_translate_to_gaussian`, given the calculation
and the contents of `qchem.out`, `efield.dat` and `hessian.dat`
(src/lib.rs lines 55–134): energy field (no trailing newline), dipole zero
line, then — per the derivative order — the gradient block, zero block and
Hessian block. -/
def qchem_translate_output (cal : Calculation)
    (qchem_out efield_dat hessian_dat : String) : Except QErr String :=
  match parse_energy qchem_out with
  | .error e => .error e
  | .ok energy =>
      let head := formatField energy
        ++ (formatField 0 ++ formatField 0 ++ formatField 0 ++ "\n")
      if cal.nder > 0 then
        match parse_nums_from_str parseF64 (3 * cal.natoms) efield_dat with
        | .error e => .error e
        | .ok data =>
            let mid := gradBlockStr cal.natoms data
              ++ zeroBlockStr (2 + 3 * cal.natoms)
            if cal.nder > 1 then
              match parse_nums_from_str parseF64 (nHessian cal.natoms)
                  hessian_dat with
              | .error e => .error e
              | .ok hdata =>
                  .ok (head ++ mid
                    ++ hessBlockStr cal.natoms (buildHess hdata (3 * cal.natoms)))
            else .ok (head ++ mid)
      else .ok head

/-- The text up to (excluding) the first newline: the "first line" of an
output document (specification-side). -/
def firstLine (s : String) : String :=
  ⟨s.data.takeWhile (fun c => c ≠ '\n')⟩

/-- Specification-side relation for C8: two atom lines that agree on the
11-character atomic-number field and on the first three of their four
remainder floats — they may differ only in the fourth float. -/
def varyFourth (l l' : String) : Prop :=
  strTake l 11 = strTake l' 11 ∧ 11 ≤ strLen l ∧ 11 ≤ strLen l' ∧
  ∃ a b c d d' : ℚ,
    parse_nums_from_str parseF64 4 (strDrop l 11) = .ok [a, b, c, d] ∧
    parse_nums_from_str parseF64 4 (strDrop l' 11) = .ok [a, b, c, d']

/-- Specification-side predicate for C9: both fixed-width fields of an atom
line parse cleanly (one `u8` in the first 11 characters, four floats in the
remainder). -/
def atomLineOk (l : String) : Prop :=
  (parse_nums_from_str parseU8 1 (strTake l 11)).isOk
  ∧ (parse_nums_from_str parseF64 4 (strDrop l 11)).isOk

/-! ## Helper lemmas: `List.mapM'` over `Option` -/

theorem optionMapM_isSome_iff {α β : Type} (f : α → Option β) :
    ∀ l : List α, (List.mapM' f l).isSome ↔ ∀ t ∈ l, (f t).isSome := by
  intro l
  induction l with
  | nil => simp [List.mapM']
  | cons a as ih =>
      cases ha : f a with
      | none => simp [List.mapM', ha]
      | some b =>
          cases has : List.mapM' f as with
          | none =>
              simp only [List.mapM', ha, has, Option.bind_eq_bind,
                Option.some_bind, Option.none_bind, Option.isSome_none,
                Bool.false_eq_true, false_iff]
              intro hall
              have : (List.mapM' f as).isSome := (ih).mpr (by
                intro t ht; exact hall t (List.mem_cons_of_mem _ ht))
              rw [has] at this
              simp at this
          | some bs =>
              simp only [List.mapM', ha, has, Option.bind_eq_bind,
                Option.some_bind, Option.pure_def, Option.isSome_some,
                true_iff, List.mem_cons]
              intro t ht
              rcases ht with rfl | ht
              · simp [ha]
              · have := (ih).mp (by simp [has]) t ht
                exact this

theorem optionMapM_eq_some {α β : Type} (f : α → Option β) :
    ∀ (l : List α) (vals : List β), List.mapM' f l = some vals →
      vals = l.filterMap f ∧ vals.length = l.length := by
  intro l
  induction l with
  | nil => intro vals h; simp [List.mapM'] at h; simp [← h]
  | cons a as ih =>
      intro vals h
      cases ha : f a with
      | none => simp [List.mapM', ha] at h
      | some b =>
          cases has : List.mapM' f as with
          | none => simp [List.mapM', ha, has] at h
          | some bs =>
              simp only [List.mapM', ha, has, Option.bind_eq_bind,
                Option.some_bind, Option.pure_def, Option.some_inj] at h
              obtain ⟨hfm, hlen⟩ := ih bs has
              subst h
              refine ⟨?_, ?_⟩
              · simp [List.filterMap_cons, ha, hfm]
              · simp [hlen]

/-- C4: `parse_nums_from_str` succeeds exactly when every whitespace-separated
token of the input parses with the target parser and the token count equals
`n`; when some token fails to parse it returns the parse error; when all
tokens parse but the count differs it returns the count-mismatch error whose
message reads "expected N values, got M"; and an `ok` result is always the
full token-count-`n` parse, never a partial one. -/
theorem parse_nums_from_str_spec {τ : Type} (parse : String → Option τ)
    (n : ℕ) (data : String) :
    ((∃ vals, parse_nums_from_str parse n data = .ok vals) ↔
      ((∀ t ∈ splitWhitespace data, (parse t).isSome)
        ∧ (splitWhitespace data).length = n))
    ∧ ((∃ t ∈ splitWhitespace data, parse t = none) →
        parse_nums_from_str parse n data = .error .parseError)
    ∧ ((∀ t ∈ splitWhitespace data, (parse t).isSome) →
        (splitWhitespace data).length ≠ n →
        parse_nums_from_str parse n data
          = .error (.countMismatch n (splitWhitespace data).length)
          ∧ (QErr.countMismatch n (splitWhitespace data).length).message
            = "expected " ++ toString n ++ " values, got "
              ++ toString (splitWhitespace data).length)
    ∧ (∀ vals, parse_nums_from_str parse n data = .ok vals →
        vals = (splitWhitespace data).filterMap parse ∧ vals.length = n) := by
  unfold parse_nums_from_str
  rw [← List.mapM'_eq_mapM]
  cases hm : List.mapM' parse (splitWhitespace data) with
  | none =>
      have hnotall : ¬ ∀ t ∈ splitWhitespace data, (parse t).isSome := by
        intro hall
        have := (optionMapM_isSome_iff parse (splitWhitespace data)).mpr hall
        rw [hm] at this
        simp at this
      refine ⟨?_, ?_, ?_, ?_⟩
      · simp only [iff_def]
        constructor
        · rintro ⟨vals, hv⟩; cases hv
        · rintro ⟨hall, -⟩; exact absurd hall hnotall
      · intro _; rfl
      · intro hall; exact absurd hall hnotall
      · intro vals hv; cases hv
  | some vals =>
      obtain ⟨hfm, hlen⟩ := optionMapM_eq_some parse _ vals hm
      have hall : ∀ t ∈ splitWhitespace data, (parse t).isSome := by
        have := (optionMapM_isSome_iff parse (splitWhitespace data)).mp
          (by rw [hm]; simp)
        exact this
      by_cases hn : vals.length = n
      · refine ⟨?_, ?_, ?_, ?_⟩
        · simp only [hn, if_pos rfl]
          constructor
          · intro _; exact ⟨hall, by omega⟩
          · intro _; exact ⟨vals, rfl⟩
        · rintro ⟨t, ht, hnone⟩
          have := hall t ht
          rw [hnone] at this
          simp at this
        · intro _ hne; omega
        · intro vals' hv'
          simp only [hn, if_pos rfl] at hv'
          cases hv'
          exact ⟨hfm, hn⟩
      · refine ⟨?_, ?_, ?_, ?_⟩
        · simp only [if_neg hn]
          constructor
          · rintro ⟨vals', hv'⟩; cases hv'
          · rintro ⟨-, hcnt⟩; exfalso; omega
        · rintro ⟨t, ht, hnone⟩
          have := hall t ht
          rw [hnone] at this
          simp at this
        · intro _ _
          constructor
          · simp only [if_neg hn]
            rw [hlen]
          · rfl
        · intro vals' hv'
          simp only [if_neg hn] at hv'
          cases hv'

/-- Witness for the C4 theorem: three parsable tokens against a target
count of four is the "expected 4, got 3" count mismatch. -/
theorem parse_nums_from_str_spec_witness :
    parse_nums_from_str parseF64 4 " 0.0 0.0 0.0"
      = .error (.countMismatch 4 3) :=
  ((parse_nums_from_str_spec parseF64 4 " 0.0 0.0 0.0").2.2.1
    (by decide) (by decide)).1

/-! ## Helper lemma: head of a filtered list at the first match -/

theorem filter_head?_first {α : Type} (p : α → Bool) :
    ∀ (l : List α) (i : ℕ) (x : α), l[i]? = some x → p x →
      (∀ j y, j < i → l[j]? = some y → ¬ p y) →
      (l.filter p).head? = some x := by
  intro l
  induction l with
  | nil => intro i x h; simp at h
  | cons a as ih =>
      intro i x h hp hfirst
      cases i with
      | zero =>
          simp only [List.getElem?_cons_zero, Option.some_inj] at h
          subst h
          simp [List.filter_cons, hp]
      | succ i =>
          have hna : ¬ p a := hfirst 0 a (Nat.succ_pos i) (by simp)
          simp only [List.getElem?_cons_succ] at h
          simp only [List.filter_cons, if_neg hna, Bool.not_eq_true] at *
          exact ih i x h hp (fun j y hj hy =>
            hfirst (j + 1) y (by omega) (by simpa using hy))

/-- C5: `parse_energy` scans the engine output's lines for the first one
beginning with the literal label `" The QM part of the energy is"` (the
first match wins), parses the whitespace-trimmed remainder of that line as
a float, and reports the missing-energy-line error when no line matches;
the spec's example line yields exactly `-76.123456789012`. -/
theorem parse_energy_spec (out : String) :
    ((∀ l ∈ rustLines out, ¬ rustStartsWith l energyLabel) →
      parse_energy out = .error .noEnergyLine)
    ∧ (∀ (i : ℕ) (l : String), (rustLines out)[i]? = some l →
        rustStartsWith l energyLabel →
        (∀ (j : ℕ) (l' : String), j < i → (rustLines out)[j]? = some l' →
          ¬ rustStartsWith l' energyLabel) →
        ∀ e, parseF64 (rustTrim (strDrop l (strLen energyLabel))) = some e →
          parse_energy out = .ok e)
    ∧ parse_energy " The QM part of the energy is      -76.123456789012"
        = .ok (-76123456789012 / 10 ^ 12) := by
  refine ⟨?_, ?_, ?_⟩
  · intro hnone
    have hfil : (rustLines out).filter
        (fun x => rustStartsWith x energyLabel) = [] :=
      List.filter_eq_nil_iff.mpr (by simpa using hnone)
    unfold parse_energy
    rw [hfil]
    rfl
  · intro i l hi hl hfirst e he
    have hh : ((rustLines out).filter
        (fun x => rustStartsWith x energyLabel)).head? = some l :=
      filter_head?_first _ (rustLines out) i l hi hl
        (fun j y hj hy => hfirst j y hj hy)
    unfold parse_energy
    rw [hh]
    show (match parseF64 (rustTrim (strDrop l (strLen energyLabel))) with
      | some e => Except.ok e
      | none => Except.error QErr.parseError) = Except.ok e
    rw [he]
  · have h1 : parse_energy " The QM part of the energy is      -76.123456789012"
        = .ok (mkRat (-76123456789012) (10 ^ 12)) := by decide
    rw [h1]
    congr 1
    rw [Rat.mkRat_eq_div]
    norm_num

/-- Witness for the C5 theorem: applying the first-match clause on a log
with a non-matching first line recovers the energy of the matching second
line. -/
theorem parse_energy_spec_witness :
    parse_energy "x\n The QM part of the energy is 1.5" = .ok (mkRat 3 2) := by
  refine (parse_energy_spec "x\n The QM part of the energy is 1.5").2.1
    1 " The QM part of the energy is 1.5" (by decide) (by decide)
    ?_ (mkRat 3 2) (by decide)
  intro j l' hj hl'
  have hj0 : j = 0 := by omega
  subst hj0
  have h0 : (rustLines "x\n The QM part of the energy is 1.5")[0]?
      = some "x" := by decide
  rw [h0] at hl'
  cases hl'
  decide

/-- C3 counterexample: the serializer's field for energy `1.5` is exactly
20 characters, but the spec's example string `"       +1.500000000000"`
has seven leading spaces and 22 characters, so the field does not equal it
character-for-character. -/
theorem formatField_example_counterexample :
    strLen (formatField (1.5 : ℚ)) = 20
    ∧ formatField (1.5 : ℚ) ≠ "       +1.500000000000"
    ∧ strLen "       +1.500000000000" = 22 := by
  have h : (1.5 : ℚ) = mkRat 3 2 := by norm_num [mkRat, Rat.normalize]
  rw [h]
  exact ⟨by decide, by decide, by decide⟩

/-- C3 amended: energy `1.5` serializes to the 20-character field
`"     +1.500000000000"` — five leading spaces, an explicit `+`, and
twelve fractional digits. -/
theorem formatField_example :
    formatField (1.5 : ℚ) = "     +1.500000000000"
    ∧ strLen (formatField (1.5 : ℚ)) = 20 := by
  have h : (1.5 : ℚ) = mkRat 3 2 := by norm_num [mkRat, Rat.normalize]
  rw [h]
  exact ⟨by decide, by decide⟩

/-- C6: the header `"2 2 0 1"` with two well-formed atom lines parses to a
calculation with `natoms = 2`, `nder = 2`, `charge = 0`, `spin = 1`; the
same header with only one atom line is the truncated-input error; an input
with no header line is the empty-input error. -/
theorem parse_gau_ein_scenarios :
    parse_gau_ein
        "2 2 0 1\n          8 0.0 0.0 0.1 0.0\n          1 0.5 0.25 0.1 0.0\n"
      = some (.ok { natoms := 2, nder := 2, charge := 0, spin := 1,
                    z := [8, 1],
                    coords := [(0, 0, mkRat 1 10),
                               (mkRat 1 2, mkRat 1 4, mkRat 1 10)] })
    ∧ parse_gau_ein "2 2 0 1\n          8 0.0 0.0 0.1 0.0\n"
      = some (.error .truncated)
    ∧ parse_gau_ein "" = some (.error .empty) :=
  ⟨by decide, by decide, by decide⟩

/-! ## Helper lemma: lengths produced by the atom-line loop -/

theorem readAtoms_ok_lengths :
    ∀ (n : ℕ) (ls : List String) (zs : List ℕ) (cs : List (ℚ × ℚ × ℚ)),
      readAtoms n ls = some (.ok (zs, cs)) →
      zs.length = n ∧ cs.length = n := by
  intro n
  induction n with
  | zero =>
      intro ls zs cs h
      cases ls <;>
        · simp only [readAtoms, Option.some_inj, Except.ok.injEq,
            Prod.mk.injEq] at h
          exact ⟨by simp [← h.1], by simp [← h.2]⟩
  | succ n ih =>
      intro ls zs cs h
      cases ls with
      | nil => simp [readAtoms] at h
      | cons line rest =>
          rw [readAtoms] at h
          split at h
          · exact absurd h (by simp)
          · split at h
            · exact absurd h (by simp)
            · split at h
              · exact absurd h (by simp)
              · split at h
                · exact absurd h (by simp)
                · exact absurd h (by simp)
                · rename_i zacc cacc heq
                  simp only [Option.some_inj, Except.ok.injEq,
                    Prod.mk.injEq] at h
                  obtain ⟨h1, h2⟩ := h
                  obtain ⟨hz, hc⟩ := ih rest zacc cacc heq
                  subst h1
                  subst h2
                  simp [hz, hc]

/-- C7: whenever `parse_gau_ein` returns a calculation, the atomic-number
list and the coordinate list both have exactly `natoms` entries. -/
theorem parse_gau_ein_invariant (content : String) (c : Calculation)
    (h : parse_gau_ein content = some (.ok c)) :
    c.z.length = c.natoms ∧ c.coords.length = c.natoms := by
  rw [parse_gau_ein] at h
  split at h
  · exact absurd h (by simp)
  · split at h
    · exact absurd h (by simp)
    · simp only [] at h
      split at h
      · exact absurd h (by simp)
      · split at h
        · exact absurd h (by simp)
        · exact absurd h (by simp)
        · rename_i zvals coords heq
          simp only [Option.some_inj, Except.ok.injEq] at h
          obtain ⟨hz, hc⟩ := readAtoms_ok_lengths _ _ _ _ heq
          rw [← h]
          exact ⟨hz, hc⟩

/-- Witness for the C7 theorem at the two-atom request of the C6
scenario. -/
theorem parse_gau_ein_invariant_witness :
    ([8, 1] : List ℕ).length = 2
    ∧ ([(0, 0, mkRat 1 10),
        (mkRat 1 2, mkRat 1 4, mkRat 1 10)] : List (ℚ × ℚ × ℚ)).length = 2 :=
  parse_gau_ein_invariant
    "2 2 0 1\n          8 0.0 0.0 0.1 0.0\n          1 0.5 0.25 0.1 0.0\n"
    { natoms := 2, nder := 2, charge := 0, spin := 1, z := [8, 1],
      coords := [(0, 0, mkRat 1 10), (mkRat 1 2, mkRat 1 4, mkRat 1 10)] }
    (by decide)

/-! ## Helper lemma: the atom-line loop ignores the fourth float -/

theorem readAtoms_congr :
    ∀ (n : ℕ) (ls ls' : List String),
      List.Forall₂ (fun l l' => l = l' ∨ varyFourth l l') ls ls' →
      readAtoms n ls = readAtoms n ls' := by
  intro n
  induction n with
  | zero => intro ls ls' _; rfl
  | succ n ih =>
      intro ls ls' hrel
      cases hrel with
      | nil => rfl
      | cons hline hrest =>
          rename_i l l' rest rest'
          rcases hline with rfl | hvary
          · rw [readAtoms, readAtoms, ih rest rest' hrest]
          · obtain ⟨htk, hl, hl', a, b, c, d, d', hv, hv'⟩ := hvary
            rw [readAtoms, readAtoms,
              if_neg (by omega), if_neg (by omega), htk]
            cases hu : parse_nums_from_str parseU8 1 (strTake l' 11) with
            | error e => rfl
            | ok zs =>
                simp only [hv, hv', ih rest rest' hrest]
                cases hr : readAtoms n rest' with
                | none => rfl
                | some res =>
                    cases res with
                    | error e => rfl
                    | ok pr =>
                        obtain ⟨zacc, cacc⟩ := pr
                        rfl

/-- C8: the fourth float on an atom line is parsed but never used — two
request files whose atom lines agree except possibly in that fourth value
parse to identical results; yet an atom line whose remainder holds only
three floats is rejected with the "expected 4, got 3" count mismatch. -/
theorem fourth_field_discarded :
    (∀ (c c' header : String) (rest rest' : List String),
      rustLines c = header :: rest → rustLines c' = header :: rest' →
      List.Forall₂ (fun l l' => l = l' ∨ varyFourth l l') rest rest' →
      parse_gau_ein c = parse_gau_ein c')
    ∧ parse_gau_ein "1 0 0 1\n          8 0.0 0.0 0.0"
        = some (.error (.countMismatch 4 3)) := by
  constructor
  · intro c c' header rest rest' hc hc' hrel
    rw [parse_gau_ein, parse_gau_ein, hc, hc']
    simp only []
    cases hp : parse_nums_from_str parseI8 4 header with
    | error e => simp only [hp]
    | ok entries =>
        simp only [hp]
        rw [readAtoms_congr _ rest rest' hrel]
  · decide

/-- Witness for the C8 theorem: two one-atom requests differing only in the
fourth float of the atom line parse to the same calculation. -/
theorem fourth_field_discarded_witness :
    parse_gau_ein "1 0 0 1\n          8 0.0 0.0 0.0 0.0"
      = parse_gau_ein "1 0 0 1\n          8 0.0 0.0 0.0 9.9" := by
  refine fourth_field_discarded.1
    "1 0 0 1\n          8 0.0 0.0 0.0 0.0"
    "1 0 0 1\n          8 0.0 0.0 0.0 9.9"
    "1 0 0 1" ["          8 0.0 0.0 0.0 0.0"] ["          8 0.0 0.0 0.0 9.9"]
    (by decide) (by decide) ?_
  refine List.forall₂_cons.mpr ⟨Or.inr ?_, List.Forall₂.nil⟩
  exact ⟨by decide, by decide, by decide, 0, 0, 0, 0, mkRat 99 10,
    by decide, by decide⟩

/-! ## Helper lemma: exactly when the atom-line loop panics -/

theorem readAtoms_none_iff :
    ∀ (n : ℕ) (ls : List String),
      readAtoms n ls = none ↔
      ∃ t, t < n ∧ (∃ l, ls[t]? = some l ∧ strLen l < 11) ∧
        (∀ s, s < t → ∃ l', ls[s]? = some l' ∧ 11 ≤ strLen l'
          ∧ atomLineOk l') := by
  intro n
  induction n with
  | zero => intro ls; simp [readAtoms]
  | succ n ih =>
      intro ls
      cases ls with
      | nil => simp [readAtoms]
      | cons line rest =>
          rw [readAtoms]
          by_cases hshort : strLen line < 11
          · rw [if_pos hshort]
            simp only [true_iff, eq_self_iff_true]
            exact ⟨0, Nat.succ_pos n, ⟨line, by simp, hshort⟩,
              fun s hs => absurd hs (Nat.not_lt_zero s)⟩
          · rw [if_neg hshort]
            cases hu : parse_nums_from_str parseU8 1 (strTake line 11) with
            | error e =>
                simp only []
                constructor
                · intro hfalse; exact absurd hfalse (by simp)
                · rintro ⟨t, ht, ⟨l, hl, hls⟩, hprev⟩
                  cases t with
                  | zero =>
                      rw [List.getElem?_cons_zero] at hl
                      cases hl
                      omega
                  | succ t =>
                      obtain ⟨l', hl', -, hok, -⟩ :=
                        hprev 0 (Nat.succ_pos t)
                      rw [List.getElem?_cons_zero] at hl'
                      cases hl'
                      rw [hu] at hok
                      simp [Except.isOk, Except.toBool] at hok
            | ok zs =>
                cases hf : parse_nums_from_str parseF64 4 (strDrop line 11) with
                | error e =>
                    simp only []
                    constructor
                    · intro hfalse; exact absurd hfalse (by simp)
                    · rintro ⟨t, ht, ⟨l, hl, hls⟩, hprev⟩
                      cases t with
                      | zero =>
                          rw [List.getElem?_cons_zero] at hl
                          cases hl
                          omega
                      | succ t =>
                          obtain ⟨l', hl', -, -, hok⟩ :=
                            hprev 0 (Nat.succ_pos t)
                          rw [List.getElem?_cons_zero] at hl'
                          cases hl'
                          rw [hf] at hok
                          simp [Except.isOk, Except.toBool] at hok
                | ok vals =>
                    have hfirstok : atomLineOk line := by
                      constructor
                      · rw [hu]; rfl
                      · rw [hf]; rfl
                    cases hr : readAtoms n rest with
                    | none =>
                        simp only [true_iff, eq_self_iff_true]
                        obtain ⟨t, ht, ⟨l, hl, hls⟩, hprev⟩ := (ih rest).mp hr
                        refine ⟨t + 1, by omega,
                          ⟨l, by simpa using hl, hls⟩, ?_⟩
                        intro s hs
                        cases s with
                        | zero =>
                            exact ⟨line, List.getElem?_cons_zero,
                              by omega, hfirstok⟩
                        | succ s =>
                            obtain ⟨l', hl', hlen, hok⟩ := hprev s (by omega)
                            exact ⟨l', by simpa using hl', hlen, hok⟩
                    | some res =>
                        constructor
                        · intro heq
                          exfalso
                          revert heq
                          cases res with
                          | error e => simp
                          | ok pr =>
                              obtain ⟨zacc, cacc⟩ := pr
                              simp
                        · rintro ⟨t, ht, ⟨l, hl, hls⟩, hprev⟩
                          exfalso
                          cases t with
                          | zero =>
                              rw [List.getElem?_cons_zero] at hl
                              cases hl
                              omega
                          | succ t =>
                              have hnone : readAtoms n rest = none := by
                                refine (ih rest).mpr ⟨t, by omega,
                                  ⟨l, by simpa using hl, hls⟩, ?_⟩
                                intro s hs
                                obtain ⟨l', hl', hlen, hok⟩ :=
                                  hprev (s + 1) (by omega)
                                exact ⟨l', by simpa using hl', hlen, hok⟩
                              rw [hr] at hnone
                              cases hnone

/-- C9 counterexample: a request whose header parses and whose second atom
line is shorter than 11 characters, but on which `parse_gau_ein` returns
the parse error raised by the first atom line rather than panicking (the
model renders a panic as `none`). -/
theorem parse_gau_ein_panic_counterexample :
    parse_nums_from_str parseI8 4 "2 0 0 1" = .ok [2, 0, 0, 1]
    ∧ rustLines "2 0 0 1\n          x 0 0 0 0\ny"
        = ["2 0 0 1", "          x 0 0 0 0", "y"]
    ∧ strLen "y" < 11
    ∧ parse_gau_ein "2 0 0 1\n          x 0 0 0 0\ny"
        = some (.error .parseError) :=
  ⟨by decide, by decide, by decide, by decide⟩

/-- C9 amended: with a parsed header whose atom and derivative counts are
nonnegative, `parse_gau_ein` panics (returns `none`, the model of the
`split_at(11)` panic) exactly when some atom line within the declared atom
count is shorter than 11 characters and every earlier atom line is at
least 11 characters long and parses cleanly; in particular the embedding
is total on requests whose atom lines all have length at least 11. -/
theorem parse_gau_ein_panic_iff (content header : String)
    (rest : List String) (es : List ℤ)
    (hc : rustLines content = header :: rest)
    (hp : parse_nums_from_str parseI8 4 header = .ok es)
    (h0 : 0 ≤ es.getD 0 0) (h1 : 0 ≤ es.getD 1 0) :
    parse_gau_ein content = none ↔
      ∃ t, t < (es.getD 0 0).toNat ∧
        (∃ l, rest[t]? = some l ∧ strLen l < 11) ∧
        (∀ s, s < t → ∃ l', rest[s]? = some l' ∧ 11 ≤ strLen l'
          ∧ atomLineOk l') := by
  rw [parse_gau_ein, hc]
  simp only []
  rw [hp]
  simp only []
  rw [if_neg (by omega)]
  rw [← readAtoms_none_iff]
  cases hr : readAtoms (es.getD 0 0).toNat rest with
  | none => simp
  | some res =>
      cases res with
      | error e => simp
      | ok pr => obtain ⟨zvals, coords⟩ := pr; simp

/-- Witness for the C9 amended theorem: a one-atom request whose single
atom line is one character long panics. -/
theorem parse_gau_ein_panic_iff_witness :
    parse_gau_ein "1 0 0 1\nx" = none := by
  refine (parse_gau_ein_panic_iff "1 0 0 1\nx" "1 0 0 1" ["x"] [1, 0, 0, 1]
    (by decide) (by decide) (by decide) (by decide)).mpr ?_
  exact ⟨0, by decide, ⟨"x", by decide, by decide⟩,
    fun s hs => absurd hs (Nat.not_lt_zero s)⟩

/-! ## Helper lemmas: the serialized fields contain no newline -/

theorem digitChar_ne_nl (n : ℕ) : digitChar n ≠ '\n' := by
  unfold digitChar
  split <;> decide

theorem natDigitsAux_ne_nl : ∀ (fuel n : ℕ), '\n' ∉ natDigitsAux fuel n := by
  intro fuel
  induction fuel with
  | zero => intro n; simp [natDigitsAux]
  | succ fuel ih =>
      intro n
      rw [natDigitsAux]
      split
      · intro h
        simp only [List.mem_singleton] at h
        exact digitChar_ne_nl n h.symm
      · intro h
        rcases List.mem_append.mp h with h | h
        · exact ih (n / 10) h
        · simp only [List.mem_singleton] at h
          exact digitChar_ne_nl (n % 10) h.symm

theorem formatFixed_ne_nl (prec : ℕ) (q : ℚ) :
    '\n' ∉ formatFixed prec q := by
  intro h
  simp only [formatFixed, natDigits, padZeros, List.mem_cons,
    List.mem_append, List.mem_replicate] at h
  rcases h with h | h | h | h | h
  · revert h
    split <;> decide
  · exact natDigitsAux_ne_nl _ _ h
  · exact absurd h (by decide)
  · exact absurd h.2 (by decide)
  · exact natDigitsAux_ne_nl _ _ h

theorem formatField_ne_nl (q : ℚ) : ∀ c ∈ (formatField q).data, c ≠ '\n' := by
  intro c hc
  simp only [formatField, rustFormatSigned, List.mem_append,
    List.mem_replicate] at hc
  rcases hc with hc | hc
  · rw [hc.2]; decide
  · intro habs
    rw [habs] at hc
    exact formatFixed_ne_nl 12 q hc

theorem takeWhile_append_all {p : Char → Bool} :
    ∀ (a b : List Char), (∀ c ∈ a, p c) →
      (a ++ b).takeWhile p = a ++ b.takeWhile p := by
  intro a
  induction a with
  | nil => intro b _; simp
  | cons c cs ih =>
      intro b h
      rw [List.cons_append, List.takeWhile_cons,
        if_pos (h c (List.mem_cons_self c cs)), List.cons_append,
        ih b (fun x hx => h x (List.mem_cons_of_mem c hx))]

/-- The first line of any text beginning with the energy field, the three
zero dipole fields and a newline is exactly those four fields. -/
theorem firstLine_of_head (s : String) (e : ℚ) (r : List Char)
    (hs : s.data = (formatField e).data ++ ((formatField 0).data
      ++ ((formatField 0).data ++ ((formatField 0).data ++ '\n' :: r)))) :
    firstLine s
      = formatField e ++ formatField 0 ++ formatField 0 ++ formatField 0 := by
  have hz : ∀ c ∈ (formatField (0 : ℚ)).data, (c ≠ '\n' : Bool) := by
    intro c hc
    simpa using formatField_ne_nl 0 c hc
  have he : ∀ c ∈ (formatField e).data, (c ≠ '\n' : Bool) := by
    intro c hc
    simpa using formatField_ne_nl e c hc
  have hdata : (firstLine s).data = (formatField e).data
      ++ ((formatField 0).data ++ ((formatField 0).data
        ++ (formatField 0).data)) := by
    show (s.data.takeWhile (fun c => c ≠ '\n')) = _
    rw [hs, takeWhile_append_all _ _ he, takeWhile_append_all _ _ hz,
      takeWhile_append_all _ _ hz, takeWhile_append_all _ _ hz]
    simp [List.takeWhile_cons]
  have hmk : firstLine s = ⟨(formatField e).data ++ ((formatField 0).data
      ++ ((formatField 0).data ++ (formatField 0).data))⟩ := by
    rw [← hdata]
  rw [hmk]
  apply congrArg String.mk
  simp [formatField, rustFormatSigned, String.data_append, List.append_assoc]

/-- The first line of the energy/dipole head followed by any further text
is the four fields. -/
theorem firstLine_head_append (e : ℚ) (r : String) :
    firstLine (formatField e
        ++ (formatField 0 ++ formatField 0 ++ formatField 0 ++ "\n") ++ r)
      = formatField e ++ formatField 0 ++ formatField 0 ++ formatField 0 := by
  apply firstLine_of_head _ e r.data
  simp only [String.data_append, List.append_assoc, List.singleton_append]

/-- The first line of the energy/dipole head alone is the four fields. -/
theorem firstLine_head (e : ℚ) :
    firstLine (formatField e
        ++ (formatField 0 ++ formatField 0 ++ formatField 0 ++ "\n"))
      = formatField e ++ formatField 0 ++ formatField 0 ++ formatField 0 := by
  apply firstLine_of_head _ e []
  simp only [String.data_append, List.append_assoc]

/-- C10: `qchem_translate_to_gaussian` writes the energy field with no
trailing newline, so on every successful translation the first line of the
output consists of the energy field immediately followed by the three zero
dipole fields; at the example energy `1.5` that first line is four
20-character fields, 80 characters in all. -/
theorem energy_line_not_alone :
    (∀ (cal : Calculation) (qo ef hs out : String) (energy : ℚ),
      parse_energy qo = .ok energy →
      qchem_translate_output cal qo ef hs = .ok out →
      firstLine out
        = formatField energy ++ formatField 0 ++ formatField 0
          ++ formatField 0)
    ∧ strLen (formatField (1.5 : ℚ) ++ formatField 0 ++ formatField 0
        ++ formatField 0) = 80 := by
  constructor
  · intro cal qo ef hs out energy hpe hout
    rw [qchem_translate_output, hpe] at hout
    simp only [] at hout
    split at hout
    · split at hout
      · exact absurd hout (by simp)
      · split at hout
        · split at hout
          · exact absurd hout (by simp)
          · simp only [Except.ok.injEq] at hout
            rw [← hout, String.append_assoc]
            exact firstLine_head_append energy _
        · simp only [Except.ok.injEq] at hout
          rw [← hout]
          exact firstLine_head_append energy _
    · simp only [Except.ok.injEq] at hout
      rw [← hout]
      exact firstLine_head energy
  · have h : (1.5 : ℚ) = mkRat 3 2 := by norm_num [mkRat, Rat.normalize]
    rw [h]
    decide

/-! ## Helper lemmas: the drain loops as `take`/`map` -/

theorem drainLoop_eq_take : ∀ (n : ℕ) (data : List ℚ),
    drainLoop n data = data.take (3 * n) := by
  intro n
  induction n with
  | zero => intro data; simp [drainLoop]
  | succ n ih =>
      intro data
      rw [drainLoop, ih (data.drop 3),
        show 3 * (n + 1) = 3 + 3 * n by ring, List.take_add]

theorem mainHessLoop_eq_map_take : ∀ (n : ℕ) (data : List ℚ),
    mainHessLoop n data
      = (data.take (3 * n)).map (fun el => el * CONV_FACTOR) := by
  intro n
  induction n with
  | zero => intro data; simp [mainHessLoop]
  | succ n ih =>
      intro data
      rw [mainHessLoop, ih (data.drop 3),
        show 3 * (n + 1) = 3 + 3 * n by ring, List.take_add,
        List.map_append]

/-- C2 counterexample: the claim that the two entry points differ exactly
in whether the gradient block is scaled by `CONV_FACTOR` is false — on no
input do the two gradient blocks differ at all (in particular neither is
the `CONV_FACTOR`-scaling of the other while differing). -/
theorem entry_points_gradient_counterexample :
    ¬ ∃ (natoms : ℕ) (data : List ℚ),
      (gradVals_main natoms data
          = (gradVals_qchem natoms data).map (fun x => x * CONV_FACTOR)
        ∨ gradVals_qchem natoms data
          = (gradVals_main natoms data).map (fun x => x * CONV_FACTOR))
      ∧ gradVals_qchem natoms data ≠ gradVals_main natoms data := by
  rintro ⟨natoms, data, -, hne⟩
  exact hne rfl

/-- C2 amended: both entry points write the gradient block unscaled — on
every input the two gradient blocks are the same leading `3*natoms` input
values verbatim — and both apply `CONV_FACTOR` in the Hessian block alone;
the entry points differ not in gradient scaling but in Hessian handling
(the binary emits the stored triangular order, the library reindexes), as
the one-atom input `[1,2,3,4,5,6]` shows. -/
theorem entry_points_conv_factor :
    (∀ (natoms : ℕ) (data : List ℚ),
      gradVals_qchem natoms data = gradVals_main natoms data
      ∧ gradVals_qchem natoms data = data.take (3 * natoms))
    ∧ (∀ (natoms : ℕ) (data : List ℚ),
        hessVals_main natoms data
          = (data.take (3 * (nHessian natoms / 3))).map
              (fun el => el * CONV_FACTOR))
    ∧ hessVals_qchem 1 [1, 2, 3, 4, 5, 6]
        ≠ hessVals_main 1 [1, 2, 3, 4, 5, 6] := by
  refine ⟨?_, ?_, ?_⟩
  · intro natoms data
    exact ⟨rfl, drainLoop_eq_take natoms data⟩
  · intro natoms data
    exact mainHessLoop_eq_map_take (nHessian natoms / 3) data
  · intro h
    rw [show hessVals_qchem 1 [1, 2, 3, 4, 5, 6]
        = [1 * CONV_FACTOR, 2 * CONV_FACTOR, 4 * CONV_FACTOR,
           3 * CONV_FACTOR, 5 * CONV_FACTOR, 6 * CONV_FACTOR] from rfl,
      show hessVals_main 1 [1, 2, 3, 4, 5, 6]
        = [1 * CONV_FACTOR, 2 * CONV_FACTOR, 3 * CONV_FACTOR,
           4 * CONV_FACTOR, 5 * CONV_FACTOR, 6 * CONV_FACTOR] from rfl,
      List.cons.injEq, List.cons.injEq, List.cons.injEq] at h
    have h43 : (4 : ℚ) * CONV_FACTOR = 3 * CONV_FACTOR := h.2.2.1
    have hcf : (CONV_FACTOR : ℚ) ≠ 0 := by norm_num [CONV_FACTOR]
    have : (4 : ℚ) = 3 := mul_right_cancel₀ hcf h43
    norm_num at this

/-! ## Helper lemmas: the Hessian build loops

`hessRow_snd` tracks the counter `k`; `hessRow_out`/`hessLoop_out` say a
key outside a row's (resp. the remaining rows') footprint is untouched;
`hessRow_in`/`hessLoop_in` locate the stored triangular index of a key
`(l, r)` with `r ≤ l < N`. -/

theorem hessRow_snd (data : List ℚ) (N i : ℕ) :
    ∀ (f j k : ℕ) (m : HMap), f = N - j →
      (hessRow data N i f j k m).2 = k + (N - j) := by
  intro f
  induction f with
  | zero =>
      intro j k m hf
      rw [hessRow]
      omega
  | succ f ih =>
      intro j k m hf
      have hj : j < N := by omega
      rw [hessRow, if_pos hj, ih (j + 1) (k + 1) _ (by omega)]
      omega

theorem hessRow_out (data : List ℚ) (N i : ℕ) :
    ∀ (f j k : ℕ) (m : HMap) (q : ℕ × ℕ),
      (∀ c, j ≤ c → c < N → q ≠ (i, c) ∧ q ≠ (c, i)) →
      (hessRow data N i f j k m).1 q = m q := by
  intro f
  induction f with
  | zero => intro j k m q _; rw [hessRow]
  | succ f ih =>
      intro j k m q hq
      rw [hessRow]
      split
      · rename_i hj
        rw [ih (j + 1) (k + 1) _ q (fun c hc1 hc2 => hq c (by omega) hc2)]
        obtain ⟨h1, h2⟩ := hq j (le_refl j) hj
        simp only [hmInsert]
        rw [if_neg h2, if_neg h1]
      · rfl

theorem hessRow_in (data : List ℚ) (N i : ℕ) :
    ∀ (f j k : ℕ) (m : HMap) (l : ℕ),
      f = N - j → i ≤ j → j ≤ l → l < N →
      (hessRow data N i f j k m).1 (l, i)
        = some (data.getD (k + (l - j)) 0 * CONV_FACTOR) := by
  intro f
  induction f with
  | zero => intro j k m l hf _ hjl hlN; omega
  | succ f ih =>
      intro j k m l hf hij hjl hlN
      have hj : j < N := by omega
      rw [hessRow, if_pos hj]
      by_cases hjeq : j = l
      · subst hjeq
        rw [hessRow_out data N i f (j + 1) (k + 1) _ (j, i) ?_]
        · simp [hmInsert]
        · intro c hc1 hc2
          constructor
          · intro habs; injection habs with ha hb; omega
          · intro habs; injection habs with ha hb; omega
      · have hjl' : j < l := by omega
        rw [ih (j + 1) (k + 1) _ l (by omega) (by omega) (by omega) hlN]
        have hidx : k + 1 + (l - (j + 1)) = k + (l - j) := by omega
        rw [hidx]

theorem hessLoop_out (data : List ℚ) (N : ℕ) :
    ∀ (d i k : ℕ) (m : HMap) (l r : ℕ), r < i →
      hessLoop data N d i k m (l, r) = m (l, r) := by
  intro d
  induction d with
  | zero => intro i k m l r _; rw [hessLoop]
  | succ d ih =>
      intro i k m l r h1
      rw [hessLoop]
      split
      · rename_i hi
        simp only []
        rw [ih (i + 1) _ _ l r (by omega),
          hessRow_out data N i (N - i) i k m (l, r) ?_]
        intro c hc1 hc2
        constructor
        · intro habs; injection habs with ha hb; omega
        · intro habs; injection habs with ha hb; omega
      · rfl

theorem hessLoop_in (data : List ℚ) (N : ℕ) :
    ∀ (d i k : ℕ) (m : HMap) (l r : ℕ),
      d = N - i → i ≤ r → r ≤ l → l < N →
      hessLoop data N d i k m (l, r)
        = some (data.getD (k + triSpan N i (r - i) + (l - r)) 0
            * CONV_FACTOR) := by
  intro d
  induction d with
  | zero => intro i k m l r hd h1 h2 h3; omega
  | succ d ih =>
      intro i k m l r hd h1 h2 h3
      have hi : i < N := by omega
      rw [hessLoop, if_pos hi]
      by_cases hir : i = r
      · subst hir
        rw [hessLoop_out data N d (i + 1) _ _ l i (by omega),
          hessRow_in data N i (N - i) i k m l rfl (le_refl i) h2 h3]
        have htr : triSpan N i (i - i) = 0 := by rw [Nat.sub_self]; rfl
        rw [htr, Nat.add_zero]
      · have hir' : i < r := by omega
        rw [ih (i + 1) _ _ l r (by omega) (by omega) h2 h3,
          hessRow_snd data N i (N - i) i k m rfl]
        have htr : triSpan N i (r - i)
            = (N - i) + triSpan N (i + 1) (r - (i + 1)) := by
          have hstep : r - i = (r - (i + 1)) + 1 := by omega
          rw [hstep, triSpan]
        rw [htr]
        have hidx : k + (N - i) + triSpan N (i + 1) (r - (i + 1)) + (l - r)
            = k + ((N - i) + triSpan N (i + 1) (r - (i + 1))) + (l - r) := by
          omega
        rw [hidx]

/-- The symmetric lookup built by the Hessian loops holds, at every key
`(l, r)` with `r ≤ l < N`, the triangular source value at flat position
`triIndex N r l`, scaled. -/
theorem buildHess_lookup (data : List ℚ) (N l r : ℕ)
    (h1 : r ≤ l) (h2 : l < N) :
    buildHess data N (l, r)
      = some (data.getD (triIndex N r l) 0 * CONV_FACTOR) := by
  rw [buildHess,
    hessLoop_in data N N 0 0 (fun _ => none) l r (by omega)
      (Nat.zero_le r) h1 h2, triIndex]
  simp [Nat.sub_zero, Nat.zero_add]

/-- The emission loop collects exactly the lookups of the emitted index
pairs, in their nested order. -/
theorem emitHessVals_eq_map (natoms : ℕ) (hess : HMap) :
    emitHessVals natoms hess
      = (lowerPairs natoms).map (fun p => (hess p).getD 0) := by
  rw [emitHessVals, lowerPairs]
  simp only [List.map_flatMap, List.map_filterMap,
    apply_ite (Option.map (fun p => (hess p).getD 0)),
    Option.map_some', Option.map_none']

/-- Every pair emitted by the quadruple loop is lower-triangular and in
range. -/
theorem lowerPairs_mem (natoms : ℕ) :
    ∀ p ∈ lowerPairs natoms, p.2 ≤ p.1 ∧ p.1 < 3 * natoms := by
  intro p hp
  simp only [lowerPairs, List.mem_flatMap, List.mem_filterMap,
    List.mem_range] at hp
  obtain ⟨i, hi, ix, hix, j, hj, jx, hjx, hpair⟩ := hp
  by_cases hcmp : 3 * j + jx ≤ 3 * i + ix
  · rw [if_pos hcmp] at hpair
    injection hpair with hpair
    rw [← hpair]
    constructor
    · exact hcmp
    · omega
  · rw [if_neg hcmp] at hpair
    cases hpair

/-- C1: for every triangular Hessian input of `N*(N+1)/2` values
(`N = 3*natoms`), the reindexer emits, pair by pair in its coordinate-major
nested order, the value at upper-triangular atom-major position
`(right, left)` scaled by `CONV_FACTOR`; for one atom and input
`[a, b, c, d, e, f]` the emitted sequence is exactly
`a, b, d, c, e, f`, each times `CONV_FACTOR`. -/
theorem hessian_reindex_spec :
    (∀ (natoms : ℕ) (data : List ℚ), data.length = nHessian natoms →
      emitHessVals natoms (buildHess data (3 * natoms))
        = (lowerPairs natoms).map
            (fun p => data.getD (triIndex (3 * natoms) p.2 p.1) 0
              * CONV_FACTOR))
    ∧ (∀ a b c d e f : ℚ,
        emitHessVals 1 (buildHess [a, b, c, d, e, f] 3)
          = [a * CONV_FACTOR, b * CONV_FACTOR, d * CONV_FACTOR,
             c * CONV_FACTOR, e * CONV_FACTOR, f * CONV_FACTOR]) := by
  constructor
  · intro natoms data _
    rw [emitHessVals_eq_map]
    apply List.map_congr_left
    intro p hp
    obtain ⟨l, r⟩ := p
    obtain ⟨h1, h2⟩ := lowerPairs_mem natoms (l, r) hp
    rw [buildHess_lookup data (3 * natoms) l r h1 h2]
    rfl
  · intro a b c d e f
    rfl

/-- Witness for the C1 theorem at the one-atom input `[1, 2, 3, 4, 5, 6]`
(which has the required `nHessian 1 = 6` values). -/
theorem hessian_reindex_spec_witness :
    emitHessVals 1 (buildHess [(1 : ℚ), 2, 3, 4, 5, 6] 3)
      = (lowerPairs 1).map
          (fun p => ([(1 : ℚ), 2, 3, 4, 5, 6]).getD (triIndex 3 p.2 p.1) 0
            * CONV_FACTOR) :=
  hessian_reindex_spec.1 1 [1, 2, 3, 4, 5, 6] (by decide)

/-- Witness for the C2 amended theorem: the library's gradient block on a
two-atom field file is the six input values, unscaled. -/
theorem entry_points_conv_factor_witness :
    gradVals_qchem 2 [1, 2, 3, 4, 5, 6] = [(1 : ℚ), 2, 3, 4, 5, 6] := by
  rw [(entry_points_conv_factor.1 2 [1, 2, 3, 4, 5, 6]).2]
  rfl

/-- Witness for the C10 theorem: a derivative-order-0 run at energy `1.5`
has the four fields as its first line. -/
theorem energy_line_not_alone_witness :
    firstLine (formatField (mkRat 3 2)
        ++ (formatField 0 ++ formatField 0 ++ formatField 0 ++ "\n"))
      = formatField (mkRat 3 2) ++ formatField 0 ++ formatField 0
        ++ formatField 0 :=
  energy_line_not_alone.1
    { natoms := 1, nder := 0, charge := 0, spin := 1, z := [8],
      coords := [(0, 0, 0)] }
    " The QM part of the energy is 1.5" "" ""
    (formatField (mkRat 3 2)
      ++ (formatField 0 ++ formatField 0 ++ formatField 0 ++ "\n"))
    (mkRat 3 2) (by decide) (by decide)

end QchemG16
